import Mathlib

/-!
# Verification of the yangfmt formatter core

A shallow embedding, in Lean 4, of the yangfmt pipeline
(lexer → statement parser → tree builder → formatting transform → printer),
translated from the Rust sources:

* lexer: src/lexing.rs (single-crate layout; the workspace layout's
  yangfmt_lexing crate is not part of the sources, its interface is the
  same `scan_iter` stream of tokens consumed by yangfmt_parsing)
* statement parser: crates/yangfmt_parsing/src/parse_statement.rs
* tree builder: crates/yangfmt_parsing/src/parsing.rs
* node model: crates/yangfmt_parsing/src/node.rs (with the statement-value
  concatenation shape of parse_statement.rs / formatting.rs, which carry
  per-fragment comments)
* formatting transform + printer: crates/yangfmt_formatting/src/formatting.rs
* canonical order: crates/yangfmt_cli/src/canonical_order.rs

Conventions of the embedding:

* Rust byte/char strings are modelled as `List Char`; byte indices and char
  indices are identified (exact for ASCII data, which is all the concrete
  material used here).
* Rust functions that can panic are modelled as `Except` values whose error
  message starts with "PANIC: ", so that "this panic is unreachable" becomes
  a provable statement.
* Rust `Vec` push/pop at the end of the vector is modelled on the
  head of a Lean list for the parser's stack of sibling lists (so the Rust
  `last()` is the Lean head); sibling lists themselves keep source order,
  `push` is `l ++ [x]`.
* Arithmetic on Rust integer types (`usize`, `u16`, `u8`) is modelled on
  `Nat`; in debug builds the Rust source panics on overflow, so `Nat`
  models the non-panicking executions faithfully.
* The two unbounded driver loops (the lexer loop and the tree-builder loop)
  are written with an explicit fuel argument so that every definition is
  structurally recursive and computable by the kernel; the canonical fuel
  (input length + 1) is sufficient because every iteration consumes at
  least one character / token.
-/

/-- Rust `String` / `&str` contents, as a list of characters. -/
abbrev Chars := List Char

/-- The double quote character, byte 34 (`DOUBLE_QUOTE` in src/lexing.rs). -/
def DOUBLE_QUOTE : Char := Char.ofNat 34

/-- The single quote character, byte 39 (`SINGLE_QUOTE` in src/lexing.rs). -/
def SINGLE_QUOTE : Char := Char.ofNat 39

/-- The backslash character, byte 92 (`BACKSLASH` in src/lexing.rs). -/
def BACKSLASH : Char := Char.ofNat 92

/-- Byte 9 (`TAB` in src/lexing.rs). -/
def TAB : Char := Char.ofNat 9

/-- Byte 10 (`NEWLINE` in src/lexing.rs). -/
def NEWLINE : Char := Char.ofNat 10

/-- NB: src/lexing.rs defines `const CARRIAGE_RETURN: u8 = 10;` — i.e. the
constant named CARRIAGE_RETURN holds the NEWLINE byte 10, not 13. The
embedding reproduces this faithfully. -/
def CARRIAGE_RETURN : Char := Char.ofNat 10

/-- Byte 32 (`SPACE` in src/lexing.rs). -/
def SPACE : Char := Char.ofNat 32

/-- Token kinds produced by the lexer (`TokenType` in src/lexing.rs). -/
inductive TokenType where
  | string
  | date
  | number
  | comment
  | openCurlyBrace
  | closingCurlyBrace
  | plus
  | semiColon
  | whiteSpace
  | lineBreak
  | other
  deriving DecidableEq, Repr

/-- A lexer token (`Token` in src/lexing.rs): kind, inclusive byte span and
the text slice. -/
structure Token where
  tokenType : TokenType
  span : Nat × Nat
  text : Chars
  deriving DecidableEq, Repr

/-- A lexer error, with the interface of the workspace layout's
`LexerError` (message and byte position); src/lexing.rs formats positions
into the message text instead, which the tree builder then copies into a
`ParseError` verbatim. Only the presence and position of the error matter
downstream. -/
structure LexError where
  message : String
  position : Nat
  deriving DecidableEq, Repr

/-- Decides `char::is_ascii_digit`. -/
def isDigitChar (c : Char) : Bool := '0' ≤ c ∧ c ≤ '9'

/-- The regex `^\-?(0|([1-9]\d*(\.\d+)?))$` (`NUMBER_PATTERN` in
src/lexing.rs), matching the part after the digits of the integer head:
`\d*(\.\d+)?`. -/
def numberTail : Chars → Bool
  | [] => true
  | c :: rest =>
    if c = '.' then ¬ rest.isEmpty ∧ rest.all isDigitChar
    else isDigitChar c ∧ numberTail rest

/-- The regex `^\-?(0|([1-9]\d*(\.\d+)?))$` (`NUMBER_PATTERN` in
src/lexing.rs). -/
def numberPatternMatch (s : Chars) : Bool :=
  let body := if s.head? = some '-' then s.drop 1 else s
  match body with
  | ['0'] => true
  | c :: rest => ('1' ≤ c ∧ c ≤ '9') ∧ numberTail rest
  | [] => false

/-- The regex `^\d{4}\-\d{2}\-\d{2}$` (`DATE_PATTERN` in src/lexing.rs). -/
def datePatternMatch (s : Chars) : Bool :=
  match s with
  | [a, b, c, d, e, f, g, h, i, j] =>
    isDigitChar a ∧ isDigitChar b ∧ isDigitChar c ∧ isDigitChar d ∧
    e = '-' ∧ isDigitChar f ∧ isDigitChar g ∧ h = '-' ∧
    isDigitChar i ∧ isDigitChar j
  | _ => false

/-- `is_delimiter` from src/lexing.rs: true if this character should
delimit an undelimited token. Note that the list contains the (mis-defined)
`CARRIAGE_RETURN` constant, which equals byte 10. -/
def isDelimiter (c : Char) : Bool :=
  [SPACE, TAB, CARRIAGE_RETURN, NEWLINE, ';', '{', '}'].contains c

/-- `scan_whitespace` from src/lexing.rs: length of the run of
spaces/tabs at `cursor`, if non-empty. -/
def scanWhitespace (buffer : Chars) (cursor : Nat) : Option Nat :=
  let len := ((buffer.drop cursor).takeWhile (fun c => c = SPACE ∨ c = TAB)).length
  if len > 0 then some len else none

/-- `scan_line_break` from src/lexing.rs. NB: the source's second branch
tests `buffer.get(cursor)` twice (for `\r` and then again, at the same
index, for `\n`), so it can never return `Some(2)`; the embedding
reproduces this faithfully. -/
def scanLineBreak (buffer : Chars) (cursor : Nat) : Option Nat :=
  if buffer.get? cursor = some '\n' then some 1
  else if buffer.get? cursor = some '\r' ∧ buffer.get? cursor = some '\n' then some 2
  else none

/-- The inner loop of `scan_string` from src/lexing.rs, walking the
characters after the opening quote with the previous character at hand;
returns the number of characters consumed up to and including the
unescaped closing quote, or `none` at end of input. -/
def scanStringLoop (quoteChar : Char) (prevChar : Option Char) : Chars → Option Nat
  | [] => none
  | c :: rest =>
    if c = quoteChar ∧ ¬ (prevChar = some BACKSLASH) then some 1
    else (scanStringLoop quoteChar (some c) rest).map (· + 1)

/-- `scan_string` from src/lexing.rs: if a quoted string starts at
`cursor`, its total length (including both quotes), or an error if it is
never terminated. -/
def scanString (buffer : Chars) (cursor : Nat) : Except LexError (Option Nat) :=
  match buffer.get? cursor with
  | some c =>
    if c = DOUBLE_QUOTE ∨ c = SINGLE_QUOTE then
      match scanStringLoop c none (buffer.drop (cursor + 1)) with
      | some len => .ok (some (len + 1))
      | none =>
        .error ⟨"Unexpected end of input, string was never terminated", cursor⟩
    else .ok none
  | none => .ok none

/-- The inner loop of `scan_comment` from src/lexing.rs: counts the
characters after the `//` until a position where `scan_line_break` matches,
or the end of the buffer. -/
def scanCommentLoop : Chars → Nat
  | [] => 0
  | c :: rest =>
    if (scanLineBreak (c :: rest) 0).isSome then 0 else 1 + scanCommentLoop rest

/-- `scan_comment` from src/lexing.rs: length of the single-line comment
starting at `cursor`, if any. -/
def scanComment (buffer : Chars) (cursor : Nat) : Option Nat :=
  if buffer.get? cursor = some '/' ∧ buffer.get? (cursor + 1) = some '/' then
    some (2 + scanCommentLoop (buffer.drop (cursor + 2)))
  else none

/-- The inner loop of `scan_block_comment` from src/lexing.rs: counts the
length increments before a `*/` is found (looking one character ahead), or
`none` if the end of the buffer is reached first. -/
def scanBlockCommentLoop : Chars → Option Nat
  | [] => none
  | c :: rest =>
    if c = '*' ∧ rest.head? = some '/' then some 0
    else (scanBlockCommentLoop rest).map (· + 1)

/-- `scan_block_comment` from src/lexing.rs: length of the block comment
starting at `cursor` (the counter starts at 4), or an error if it is never
terminated. -/
def scanBlockComment (buffer : Chars) (cursor : Nat) : Except LexError (Option Nat) :=
  if buffer.get? cursor = some '/' ∧ buffer.get? (cursor + 1) = some '*' then
    match scanBlockCommentLoop (buffer.drop (cursor + 2)) with
    | some k => .ok (some (4 + k))
    | none =>
      .error ⟨"Unexpected end of input, block comment was never terminated", cursor⟩
  else .ok none

/-- `scan_other` from src/lexing.rs: length of the run of non-delimiter
characters at `cursor`, if non-empty. -/
def scanOther (buffer : Chars) (cursor : Nat) : Option Nat :=
  let len := ((buffer.drop cursor).takeWhile (fun c => ¬ isDelimiter c)).length
  if len > 0 then some len else none

/-- Builds the token of the given type and length at `cursor` and returns
it together with the next cursor position (the `read_token!` macro of
`next_token` in src/lexing.rs). -/
def readToken (buffer : Chars) (cursor : Nat) (tokenType : TokenType) (length : Nat) :
    Nat × Token :=
  (cursor + length, ⟨tokenType, (cursor, cursor + length - 1), (buffer.drop cursor).take length⟩)

/-- `next_token` from src/lexing.rs: reads the next token at `cursor`,
returns `none` at end of input, trying each scanner in the source's
priority order. -/
def nextToken (buffer : Chars) (cursor : Nat) : Except LexError (Option (Nat × Token)) :=
  match buffer.get? cursor with
  | none => .ok none
  | some c =>
    if c = ';' then .ok (some (readToken buffer cursor .semiColon 1))
    else if c = '+' then .ok (some (readToken buffer cursor .plus 1))
    else if c = '{' then .ok (some (readToken buffer cursor .openCurlyBrace 1))
    else if c = '}' then .ok (some (readToken buffer cursor .closingCurlyBrace 1))
    else match scanWhitespace buffer cursor with
    | some len => .ok (some (readToken buffer cursor .whiteSpace len))
    | none => match scanLineBreak buffer cursor with
    | some len => .ok (some (readToken buffer cursor .lineBreak len))
    | none => match scanString buffer cursor with
    | .error e => .error e
    | .ok (some len) => .ok (some (readToken buffer cursor .string len))
    | .ok none => match scanComment buffer cursor with
    | some len => .ok (some (readToken buffer cursor .comment len))
    | none => match scanBlockComment buffer cursor with
    | .error e => .error e
    | .ok (some len) => .ok (some (readToken buffer cursor .comment len))
    | .ok none => match scanOther buffer cursor with
    | some len =>
      let s := (buffer.drop cursor).take len
      if numberPatternMatch s then .ok (some (readToken buffer cursor .number len))
      else if datePatternMatch s then .ok (some (readToken buffer cursor .date len))
      else .ok (some (readToken buffer cursor .other len))
    | none => .error ⟨"Unexpected character", cursor⟩

/-- The lexer loop: collects tokens from `cursor` on. The fuel argument
makes the recursion structural; `buffer.length + 1` is always enough fuel
because every token is at least one character long. -/
def scanGo (buffer : Chars) (cursor : Nat) : Nat → Except LexError (List Token)
  | 0 => .error ⟨"PANIC: lexer fuel exhausted", cursor⟩
  | fuel + 1 =>
    match nextToken buffer cursor with
    | .error e => .error e
    | .ok none => .ok []
    | .ok (some (next, token)) => (scanGo buffer next fuel).map (token :: ·)

/-- `scan` / `scan_iter`: the token stream of a whole buffer. The workspace
lexer yields tokens lazily (each a `Result`); collecting them into one
`Except` is equivalent for every use in this development, none of which
touches tokens beyond a lexer error. -/
def scan (buffer : Chars) : Except LexError (List Token) :=
  scanGo buffer 0 (buffer.length + 1)

example :
    scan "abc 123;".toList =
      .ok [⟨.other, (0, 2), "abc".toList⟩, ⟨.whiteSpace, (3, 3), [' ']⟩,
        ⟨.number, (4, 6), "123".toList⟩, ⟨.semiColon, (7, 7), [';']⟩] := by rfl

/-! ## Node model (crates/yangfmt_parsing/src/node.rs) -/

/-- A statement keyword (`StatementKeyword` in node.rs): recognized
keyword, `prefix:name` extension keyword, or anything else (kept, tagged
invalid). -/
inductive StatementKeyword where
  | keyword (text : Chars)
  | extensionKeyword (text : Chars)
  | invalid (text : Chars)
  deriving DecidableEq, Repr

/-- `StatementKeyword::text`. -/
def StatementKeyword.text : StatementKeyword → Chars
  | .keyword t => t
  | .extensionKeyword t => t
  | .invalid t => t

/-- Modelled from the spec: the fixed set of known statement keywords
(`STATEMENT_KEYWORDS` in the parsing crate's constants module, which is
not among the sources). The exact contents of the set only influence the
`Keyword`/`Invalid` tag of a statement, never the keyword text, and no
downstream behaviour in this development depends on the tag. The list
below collects the YANG statement keywords exercised by the sources. -/
def STATEMENT_KEYWORDS : List Chars :=
  ["module", "submodule", "yang-version", "namespace", "prefix", "import",
   "include", "organization", "contact", "description", "reference",
   "revision", "typedef", "type", "container", "leaf", "leaf-list", "list",
   "key", "unique", "grouping", "uses", "augment", "when", "if-feature",
   "feature", "identity", "base", "enum", "bit", "position", "range",
   "length", "pattern", "default", "units", "must", "error-message",
   "error-app-tag", "min-elements", "max-elements", "ordered-by", "config",
   "mandatory", "presence", "status", "choice", "case", "anyxml", "anydata",
   "rpc", "input", "output", "notification", "action", "extension",
   "argument", "belongs-to", "refine", "deviation", "deviate", "fraction-digits",
   "path", "require-instance", "value"].map String.toList

/-- A character that may start an identifier: `[a-zA-Z_]` (see
`IDENTIFIER_PATTERN` in node.rs). -/
def isIdentStart (c : Char) : Bool := ('a' ≤ c ∧ c ≤ 'z') ∨ ('A' ≤ c ∧ c ≤ 'Z') ∨ c = '_'

/-- A character that may continue an identifier: `[a-zA-Z0-9\-_.]` (see
`IDENTIFIER_PATTERN` in node.rs). -/
def isIdentChar (c : Char) : Bool := isIdentStart c ∨ isDigitChar c ∨ c = '-' ∨ c = '.'

/-- The regex `^[a-zA-Z_][a-zA-Z0-9\-_.]*$` (`IDENTIFIER_PATTERN` in
node.rs). -/
def identifierMatch : Chars → Bool
  | [] => false
  | c :: rest => isIdentStart c ∧ rest.all isIdentChar

/-- The regex `^[a-zA-Z_][a-zA-Z0-9\-_.]*:[a-zA-Z_][a-zA-Z0-9\-_.]*$`
(`EXT_KEYWORD_PATTERN` in node.rs): identifier, colon, identifier. A colon
is not an identifier character, so splitting at the first colon is
exhaustive. -/
def extKeywordMatch (s : Chars) : Bool :=
  let a := s.takeWhile (· ≠ ':')
  match s.dropWhile (· ≠ ':') with
  | ':' :: b => identifierMatch a ∧ identifierMatch b
  | _ => false

/-- `impl From<String> for StatementKeyword` (node.rs): classify a keyword
text. -/
def statementKeywordFromText (text : Chars) : StatementKeyword :=
  if STATEMENT_KEYWORDS.contains text then .keyword text
  else if extKeywordMatch text then .extensionKeyword text
  else .invalid text

/-- The value part of a statement (`NodeValue`). Concatenation fragments
carry their own trailing comments, as built by parse_statement.rs and
consumed by formatting.rs (node.rs as shipped still declares the fragment
list without the comment component; the two crates that create and use
concatenation values agree on the shape used here). -/
inductive NodeValue where
  | string (text : Chars)
  | stringConcatenation (fragments : List (Chars × List Chars))
  | number (text : Chars)
  | date (text : Chars)
  | other (text : Chars)
  deriving DecidableEq, Repr

/-- `impl From<&Token> for NodeValue` (node.rs). -/
def NodeValue.fromToken (token : Token) : NodeValue :=
  match token.tokenType with
  | .string => .string token.text
  | .number => .number token.text
  | .date => .date token.text
  | .other => .other token.text
  | _ => .other token.text

/-- A tree node (`Node` in node.rs). `Statement` fields are carried inline
(keyword, keyword comments, optional value, value comments, optional
children, post comments); `children = some []` is an empty block `{}`,
`children = none` a leaf statement. -/
inductive Node where
  | statement (keyword : StatementKeyword) (keywordComments : List Chars)
      (value : Option NodeValue) (valueComments : List Chars)
      (children : Option (List Node)) (postComments : List Chars)
  | emptyLine (text : Chars)
  | comment (text : Chars)
  deriving Repr

/-- `NodeHelpers::is_empty_line`. -/
def Node.isEmptyLine : Node → Bool
  | .emptyLine _ => true
  | _ => false

/-- `NodeHelpers::node_value`. -/
def Node.nodeValue : Node → Option NodeValue
  | .statement _ _ v _ _ _ => v
  | _ => none

/-- The root of a parsed document (`RootNode`). -/
structure RootNode where
  children : List Node

/-- A parse error (`ParseError` in parsing.rs): message and byte
position. Messages that the Rust source builds with `format!` from token
debug output are modelled by their fixed head; messages of panics
(`unreachable!`, `.expect`, `.unwrap`) start with "PANIC: ". -/
structure ParseError where
  message : String
  position : Nat
  deriving DecidableEq, Repr

/-! ## Statement parser (crates/yangfmt_parsing/src/parse_statement.rs) -/

/-- Whether the concatenation sub-machine is before or after a plus symbol
(`PlusState`). -/
inductive PlusState where
  | beforePlus
  | afterPlus
  deriving DecidableEq, Repr

/-- The statement parser's state (`ParseState` in parse_statement.rs). -/
inductive ParseState where
  | clean
  | gotKeyword (keyword : Chars) (keywordComments : List Chars)
  | gotValue (keyword : Chars) (keywordComments : List Chars)
      (value : NodeValue) (valueComments : List Chars)
  | gotStringConcat (keyword : Chars) (keywordComments : List Chars)
      (concat : List (Chars × List Chars)) (plusState : PlusState)
  | gotStatement (keyword : Chars) (keywordComments : List Chars)
      (value : Option NodeValue) (valueComments : List Chars)
      (hasChildren : Bool) (postComments : List Chars)
  deriving DecidableEq, Repr

/-- Appends a comment to the last concatenation fragment
(`concat.last_mut().unwrap().1.push(..)` in parse_statement.rs); `none`
when the fragment list is empty and the source would panic on the
`unwrap`. -/
def pushToLastFragment (concat : List (Chars × List Chars)) (text : Chars) :
    Option (List (Chars × List Chars)) :=
  match concat.getLast? with
  | none => none
  | some (s, comments) => some (concat.dropLast ++ [(s, comments ++ [text])])

/-- The outcome of one iteration of the statement parser's token loop:
keep looping in a new state, break with a finished statement state, or
fail. -/
inductive PsAction where
  | continueWith (next : ParseState)
  | finish (final : ParseState)
  | fail (e : ParseError)
  deriving Repr

/-- The body of the `for token in token_stream` loop of `parse_statement`
(one consumed token): the full state/token match of the source.
`finish` models the arms that assign a `GotStatement` state and `break`. -/
def psLoopBody (state : ParseState) (token : Token) : PsAction :=
  match state with
  | .clean =>
    match token.tokenType with
    | .other => .continueWith (.gotKeyword token.text [])
    | _ => .fail ⟨"Unexpected token", token.span.1⟩
  | .gotKeyword keyword keywordComments =>
    match token.tokenType with
    | .whiteSpace | .lineBreak => .continueWith (.gotKeyword keyword keywordComments)
    | .comment => .continueWith (.gotKeyword keyword (keywordComments ++ [token.text]))
    | .semiColon => .finish (.gotStatement keyword keywordComments none [] false [])
    | .openCurlyBrace => .finish (.gotStatement keyword keywordComments none [] true [])
    | _ =>
      .continueWith (.gotValue keyword keywordComments (NodeValue.fromToken token) [])
  | .gotValue keyword keywordComments value valueComments =>
    match token.tokenType with
    | .whiteSpace | .lineBreak =>
      .continueWith (.gotValue keyword keywordComments value valueComments)
    | .comment =>
      .continueWith (.gotValue keyword keywordComments value (valueComments ++ [token.text]))
    | .semiColon =>
      .finish (.gotStatement keyword keywordComments (some value) valueComments false [])
    | .openCurlyBrace =>
      .finish (.gotStatement keyword keywordComments (some value) valueComments true [])
    | .plus =>
      match value with
      | .string s =>
        .continueWith (.gotStringConcat keyword keywordComments [(s, valueComments)] .afterPlus)
      | _ => .fail ⟨"Unexpected concatenation of non-string value", token.span.1⟩
    | _ => .fail ⟨"Unexpected token", token.span.1⟩
  | .gotStringConcat keyword keywordComments concat plusState =>
    match plusState with
    | .beforePlus =>
      match token.tokenType with
      | .whiteSpace | .lineBreak =>
        .continueWith (.gotStringConcat keyword keywordComments concat .beforePlus)
      | .plus => .continueWith (.gotStringConcat keyword keywordComments concat .afterPlus)
      | .comment =>
        match pushToLastFragment concat token.text with
        | some concat =>
          .continueWith (.gotStringConcat keyword keywordComments concat .beforePlus)
        | none => .fail ⟨"PANIC: last_mut on empty concatenation", token.span.1⟩
      | .semiColon =>
        .finish (.gotStatement keyword keywordComments
          (some (.stringConcatenation concat)) [] false [])
      | .openCurlyBrace =>
        .finish (.gotStatement keyword keywordComments
          (some (.stringConcatenation concat)) [] true [])
      | _ => .fail ⟨"Unexpected token", token.span.1⟩
    | .afterPlus =>
      match token.tokenType with
      | .whiteSpace | .lineBreak =>
        .continueWith (.gotStringConcat keyword keywordComments concat .afterPlus)
      | .string =>
        .continueWith (.gotStringConcat keyword keywordComments
          (concat ++ [(token.text, [])]) .beforePlus)
      | .comment =>
        match pushToLastFragment concat token.text with
        | some concat =>
          .continueWith (.gotStringConcat keyword keywordComments concat .afterPlus)
        | none => .fail ⟨"PANIC: last_mut on empty concatenation", token.span.1⟩
      | _ => .fail ⟨"Unexpected token", token.span.1⟩
  | .gotStatement .. =>
    .fail ⟨"PANIC: Loop should break when finishing a statement", token.span.1⟩

/-- The statement parser's token loop (the `for token in token_stream`
loop of `parse_statement`), driving `psLoopBody`; the last consumed
token's position is threaded through as in the source. Returns the state
at the point the loop ends (by break, or by exhausting the stream), the
last consumed token position, and the unconsumed remainder of the
stream. -/
def psLoop (state : ParseState) (lastPosition : Option Nat) :
    List Token → Except ParseError (ParseState × Option Nat × List Token)
  | [] => .ok (state, lastPosition, [])
  | token :: rest =>
    match psLoopBody state token with
    | .continueWith next => psLoop next (some token.span.1) rest
    | .finish final => .ok (final, some token.span.1, rest)
    | .fail e => .error e

/-- The trailing-trivia loop of `parse_statement`: after the statement's
terminator, consume same-line whitespace and comments (pushed onto the
post comments) until the first other token, which is left in the
stream. -/
def postCommentsLoop (postComments : List Chars) :
    List Token → List Chars × List Token
  | [] => (postComments, [])
  | token :: rest =>
    match token.tokenType with
    | .whiteSpace => postCommentsLoop postComments rest
    | .comment => postCommentsLoop (postComments ++ [token.text]) rest
    | _ => (postComments, token :: rest)

/-- `parse_statement`: parse one statement from the token stream. Returns
the statement node, whether it opens a block, and the unconsumed remainder
of the stream. -/
def parseStatement (tokens : List Token) :
    Except ParseError ((Node × Bool) × List Token) :=
  match psLoop .clean none tokens with
  | .error e => .error e
  | .ok (state, lastPosition, rest) =>
    match state with
    | .gotStatement keyword keywordComments value valueComments opensBlock postComments =>
      let (postComments, rest) := postCommentsLoop postComments rest
      .ok ((.statement (statementKeywordFromText keyword) keywordComments value
        valueComments none postComments, opensBlock), rest)
    | .clean => .error ⟨"PANIC: Can't have a clean state after parsing a statement",
        lastPosition.getD 0⟩
    | _ => .error ⟨"Unexpected end of input", lastPosition.getD 0⟩

/-! ## Tree builder (crates/yangfmt_parsing/src/parsing.rs)

The builder's loop is modelled as a step function on an explicit state:
the unconsumed token stream, the stack of open sibling lists (Lean list
head = top of the Rust `Vec` stack), the `prev_token_was_line_break` flag
and the `prev_token_pos` position. `parseStep` performs exactly one
iteration of the `loop` in `parse` (or, on an exhausted stream, the
code after the loop). Lean's `.1`/`.2` on pairs are the Rust `.0`/`.1`. -/

/-- The tree builder's loop state. -/
structure BuilderState where
  rem : List Token
  stack : List (List Node)
  prevTokenWasLineBreak : Bool
  prevTokenPos : Nat
  deriving Repr

/-- Replaces the children of a statement node (the
`statement.children = Some(nodes)` assignment in `parse`). -/
def Node.withChildren (children : Option (List Node)) : Node → Node
  | .statement kw kc v vc _ pc => .statement kw kc v vc children pc
  | n => n

/-- One iteration of the `loop` in `parse` (parsing.rs); on an empty
stream, the end-of-input handling after the loop. Returns either the next
state or the finished root node. -/
def parseStep (s : BuilderState) : Except ParseError (BuilderState ⊕ RootNode) :=
  match s.rem with
  | [] =>
    if s.stack.length > 1 then
      .error ⟨"Unclosed block at end of file", s.prevTokenPos⟩
    else
      match s.stack with
      | [nodes] => .ok (.inr ⟨nodes⟩)
      | _ => .error ⟨"PANIC: Should be one node list in node stack after parsing is done",
          s.prevTokenPos⟩
  | token :: rest =>
    match s.stack with
    | [] => .error ⟨"PANIC: Stack should never be empty", token.span.1⟩
    | top :: stackRest =>
      match token.tokenType with
      | .whiteSpace =>
        .ok (.inl ⟨rest, top :: stackRest, s.prevTokenWasLineBreak, token.span.1⟩)
      | .lineBreak =>
        .ok (.inl ⟨rest,
          (if s.prevTokenWasLineBreak then top ++ [Node.emptyLine token.text] else top)
            :: stackRest,
          true, token.span.1⟩)
      | .comment =>
        .ok (.inl ⟨rest, (top ++ [Node.comment token.text]) :: stackRest, false, token.span.1⟩)
      | .closingCurlyBrace =>
        match stackRest with
        | [] => .error ⟨"Unexpected closing curly brace", token.span.1⟩
        | prevNodes :: stackRest' =>
          match prevNodes.getLast? with
          | some (Node.statement kw kc v vc _ pc) =>
            .ok (.inl ⟨rest,
              (prevNodes.dropLast ++ [Node.statement kw kc v vc (some top) pc]) :: stackRest',
              false, token.span.1⟩)
          | _ =>
            .error ⟨"PANIC: Previous node when closing a block must be a statement",
              token.span.1⟩
      | _ =>
        match parseStatement (token :: rest) with
        | .error e => .error e
        | .ok ((stmtNode, opensBlock), rest') =>
          let stack' := (top ++ [stmtNode]) :: stackRest
          .ok (.inl ⟨rest', if opensBlock then [] :: stack' else stack', false, token.span.1⟩)

/-- The initial state of the tree builder on a token stream. -/
def initState (tokens : List Token) : BuilderState :=
  ⟨tokens, [[]], false, 0⟩

/-- Iterates `parseStep` to completion. The fuel argument makes the
recursion structural; `tokens.length + 1` is always enough because every
step consumes at least one token. -/
def parseGo (s : BuilderState) : Nat → Except ParseError RootNode
  | 0 => .error ⟨"PANIC: tree builder fuel exhausted", s.prevTokenPos⟩
  | fuel + 1 =>
    match parseStep s with
    | .error e => .error e
    | .ok (.inr root) => .ok root
    | .ok (.inl s') => parseGo s' fuel

/-- `parse` on an already-lexed token stream. -/
def parseTokens (tokens : List Token) : Except ParseError RootNode :=
  parseGo (initState tokens) (tokens.length + 1)

/-- `parse` (parsing.rs): lex, then build the tree. The workspace lexer
is lazy — the builder only sees a lexer error when it reaches it in the
stream; lexing eagerly first yields the same results everywhere in this
development (which never parses an input whose interesting behaviour is
after a lexer error). -/
def parse (buffer : Chars) : Except ParseError RootNode :=
  match scan buffer with
  | .error e => .error ⟨e.message, e.position⟩
  | .ok tokens => parseTokens tokens

example :
    (parse "module foo { bar 2022-01-01; }".toList).map RootNode.children =
      .ok [.statement (.keyword "module".toList) [] (some (.other "foo".toList)) []
        (some [.statement (.invalid "bar".toList) [] (some (.date "2022-01-01".toList)) []
          none []]) []] := by rfl

/-! ## Formatting transform (crates/yangfmt_formatting/src/formatting.rs) -/

/-- Indentation style (`Indent`; only spaces are implemented). -/
inductive Indent where
  | spaces (n : Nat)
  deriving DecidableEq, Repr

/-- `FormatConfig`: indentation, target line width, canonical-order
toggle. -/
structure FormatConfig where
  indent : Indent
  lineLength : Nat
  fixCanonicalOrder : Bool
  deriving DecidableEq, Repr

/-- `FormatConfig::indent_width`. -/
def FormatConfig.indentWidth (cfg : FormatConfig) : Nat :=
  match cfg.indent with
  | .spaces n => n

/-- Decides Rust `char::is_ascii_whitespace` (space, tab, newline, form
feed, carriage return). -/
def rustIsAsciiWhitespace (c : Char) : Bool :=
  c ∈ [' ', '\t', '\n', Char.ofNat 12, '\r']

/-- Decides Rust `char::is_whitespace` (the Unicode White_Space
property). -/
def rustIsWhitespace (c : Char) : Bool :=
  c ∈ ([' ', '\t', '\n', Char.ofNat 11, Char.ofNat 12, '\r'] ++
    [Char.ofNat 0x85, Char.ofNat 0xA0, Char.ofNat 0x1680] ++
    (List.range 11).map (fun k => Char.ofNat (0x2000 + k)) ++
    [Char.ofNat 0x2028, Char.ofNat 0x2029, Char.ofNat 0x202F, Char.ofNat 0x205F,
     Char.ofNat 0x3000])

/-- Strips one trailing carriage return, as Rust `str::lines` does to each
line. -/
def stripTrailingCR (line : Chars) : Chars :=
  if line.getLast? = some '\r' then line.dropLast else line

/-- The accumulator loop behind `rustLines`: builds the current line in
reverse in `acc`. -/
def rustLinesGo (acc : Chars) : Chars → List Chars
  | [] => [stripTrailingCR acc.reverse]
  | c :: rest =>
    if c = '\n' then
      match rest with
      | [] => [stripTrailingCR acc.reverse]
      | _ => stripTrailingCR acc.reverse :: rustLinesGo [] rest
    else rustLinesGo (c :: acc) rest

/-- Rust `str::lines`: split at `'\n'`, strip one trailing `'\r'` from
each line, and do not produce a final empty line for a trailing
newline. -/
def rustLines (s : Chars) : List Chars :=
  if s.isEmpty then [] else rustLinesGo [] s

/-- A line consisting only of whitespace. -/
def isBlankLine (line : Chars) : Bool := line.all rustIsWhitespace

/-- Modelled from the spec: the external `textwrap::dedent` used by
`dedent_multilined_string` — remove the minimum common leading whitespace
of the non-blank lines from every line ("standard block-dedent");
whitespace-only lines come out empty, and a trailing line break is kept
iff the input had one. -/
def textwrapDedent (s : Chars) : Chars :=
  let lines := rustLines s
  let nonBlank := lines.filter (fun l => ¬ isBlankLine l)
  let amount := (nonBlank.map (fun l => (l.takeWhile rustIsWhitespace).length)).foldr min
    ((nonBlank.head?.map (fun l => (l.takeWhile rustIsWhitespace).length)).getD 0)
  (List.intercalate ['\n'] (lines.map (fun l => if isBlankLine l then [] else l.drop amount))) ++
    (if s.getLast? = some '\n' then ['\n'] else [])

/-- First character is a single quote (`is_single_quoted` in
`convert_to_double_quotes`, which tests the first byte). -/
def isSingleQuoted (s : Chars) : Bool := s.head? = some SINGLE_QUOTE

/-- The content strictly between the delimiters contains a double quote
(`contains_quote` in `convert_to_double_quotes`, which drops the first and
last char). -/
def containsQuote (s : Chars) : Bool := ((s.drop 1).dropLast).contains DOUBLE_QUOTE

/-- Replace the first and the last character by a double quote
(`set_double_quotes` in `convert_to_double_quotes`: `replace_range(0..1)`
then `replace_range(len-1..)`). -/
def setDoubleQuotes (s : Chars) : Chars :=
  let s := DOUBLE_QUOTE :: s.drop 1
  s.dropLast ++ [DOUBLE_QUOTE]

/-- The loop body of `convert_to_double_quotes` over one concatenation
fragment. -/
def convertFragment (frag : Chars × List Chars) : Chars × List Chars :=
  if ¬ isSingleQuoted frag.1 ∨ containsQuote frag.1 then frag
  else (setDoubleQuotes frag.1, frag.2)

/-- `convert_to_double_quotes` (formatting.rs): rewrite single-quoted
string values and concatenation fragments to double quotes, unless the
inner content contains a double quote. -/
def convertToDoubleQuotes (node : Node) : Node :=
  match node with
  | .statement kw kc (some (.string s)) vc ch pc =>
    if ¬ isSingleQuoted s ∨ containsQuote s then node
    else .statement kw kc (some (.string (setDoubleQuotes s))) vc ch pc
  | .statement kw kc (some (.stringConcatenation frags)) vc ch pc =>
    .statement kw kc (some (.stringConcatenation (frags.map convertFragment))) vc ch pc
  | _ => node

/-- The text rewrite of `strip_string` (formatting.rs) on a quoted string
text (both quotes included): strip leading ASCII whitespace and trailing
(Unicode) whitespace from the content; an all-whitespace content becomes
the empty string `""`. The two `drain` calls are performed in source
order (trailing, then leading). -/
def stripStringText (text : Chars) : Chars :=
  let slice := (text.drop 1).dropLast
  match slice.findIdx? (fun c => ¬ rustIsAsciiWhitespace c) with
  | none => [DOUBLE_QUOTE, DOUBLE_QUOTE]
  | some pos =>
    let textStart := 1 + pos
    let textEnd :=
      text.length - ((slice.reverse.findIdx? (fun c => ¬ rustIsWhitespace c)).getD 0) - 2
    let text :=
      if textEnd < text.length - 2 then
        text.take (textEnd + 1) ++ text.drop (text.length - 1)
      else text
    if textStart > 1 then text.take 1 ++ text.drop textStart else text

/-- `strip_string` (formatting.rs), on a node. -/
def stripString (node : Node) : Node :=
  match node with
  | .statement kw kc (some (.string text)) vc ch pc =>
    .statement kw kc (some (.string (stripStringText text))) vc ch pc
  | _ => node

/-- `dedent_multilined_string` (formatting.rs): for a string value of two
or more lines, keep the first line at the opening quote and block-dedent
the rest. -/
def dedentMultilinedString (node : Node) : Node :=
  match node with
  | .statement kw kc (some (.string text)) vc ch pc =>
    match text.head? with
    | none => node
    | some quotechar =>
      let inner := (text.drop 1).dropLast
      let lines := rustLines inner
      if lines.length < 2 then node
      else
        let firstLine := lines.headD []
        let rest := textwrapDedent (List.intercalate ['\n'] (lines.drop 1))
        .statement kw kc
          (some (.string ((quotechar :: firstLine) ++ ('\n' :: rest) ++ [quotechar]))) vc ch pc
  | _ => node

/-- `trim_line_breaks` (formatting.rs): the two while loops removing
leading and then trailing `EmptyLine` nodes. -/
def trimLineBreaks (statements : List Node) : List Node :=
  ((statements.dropWhile Node.isEmptyLine).reverse.dropWhile Node.isEmptyLine).reverse

/-- The index loop of `squash_line_breaks`: starting from the second
element, drop any node that is an `EmptyLine` directly preceded by an
`EmptyLine` (the element before the dropped one stays the comparison
anchor, exactly as the source keeps `i` unchanged after `remove(i)`). -/
def squashGo (prev : Node) : List Node → List Node
  | [] => []
  | y :: ys =>
    if y.isEmptyLine ∧ prev.isEmptyLine then squashGo prev ys
    else y :: squashGo y ys

/-- `squash_line_breaks` (formatting.rs): collapse runs of `EmptyLine`
nodes to a single one. -/
def squashLineBreaks : List Node → List Node
  | [] => []
  | x :: xs => x :: squashGo x xs

/-- The loop body of `relocate_pre_block_comments`: move one statement's
keyword comments and value comments to the end of its post comments. -/
def relocateNode : Node → Node
  | .statement kw kc v vc ch pc => .statement kw [] v [] ch (pc ++ kc ++ vc)
  | n => n

/-- `relocate_pre_block_comments` (formatting.rs): move every statement's
keyword comments and value comments to the end of its post comments. -/
def relocatePreBlockComments (nodes : List Node) : List Node :=
  nodes.map relocateNode

/-- `sort_statements` (crates/yangfmt_cli/src/canonical_order.rs): the
entire body of the function is commented out in the source, so it leaves
the statement list untouched. -/
def sortStatements (_parentNodeName : Option Chars) (statements : List Node) : List Node :=
  statements

/-- The sibling-list-level passes of `process_statements` (formatting.rs),
in source order: trim line breaks, squash line breaks, relocate comments,
and (when enabled) canonical-order sorting. -/
def siblingPasses (parentNodeName : Option Chars) (cfg : FormatConfig)
    (statements : List Node) : List Node :=
  let statements := trimLineBreaks statements
  let statements := squashLineBreaks statements
  let statements := relocatePreBlockComments statements
  if cfg.fixCanonicalOrder then sortStatements parentNodeName statements else statements

mutual

/-- The per-node body of the `for` loop of `process_statements`
(formatting.rs): recurse into a block statement's children (applying the
sibling passes there, i.e. the body of `process_statements`, written
inline so that the recursion is structural), then apply
`convert_to_double_quotes`, `strip_string` and
`dedent_multilined_string` to the node. -/
def processNode (cfg : FormatConfig) : Node → Node
  | .statement kw kc v vc (some children) pc =>
    let node := Node.statement kw kc v vc
      (some (siblingPasses (some kw.text) cfg (processNodeList cfg children))) pc
    dedentMultilinedString (stripString (convertToDoubleQuotes node))
  | node => dedentMultilinedString (stripString (convertToDoubleQuotes node))
termination_by structural n => n

/-- The `for node in statements` traversal of `process_statements`. -/
def processNodeList (cfg : FormatConfig) : List Node → List Node
  | [] => []
  | node :: rest => processNode cfg node :: processNodeList cfg rest
termination_by structural l => l

end

/-- `process_statements` (formatting.rs): apply the formatting transform
recursively (children before parents), then the sibling-list passes at
this level. -/
def processStatements (parentNodeName : Option Chars) (cfg : FormatConfig)
    (statements : List Node) : List Node :=
  siblingPasses parentNodeName cfg (processNodeList cfg statements)

/-! ## Printer (`write_node` in formatting.rs) -/

/-- `indent!(depth)`: depth times the configured spaces. -/
def indentChars (cfg : FormatConfig) (depth : Nat) : Chars :=
  match cfg.indent with
  | .spaces n => List.replicate (depth * n) ' '

/-- A run of comments, each written as `write!(out, " {comment}")`. -/
def commentsInline (comments : List Chars) : Chars :=
  (comments.map (fun c => ' ' :: c)).flatten

/-- `write_keyword!`: the keyword text followed by the keyword
comments. -/
def writeKeyword (keyword : StatementKeyword) (keywordComments : List Chars) : Chars :=
  keyword.text ++ commentsInline keywordComments

/-- `write_simple_value!`: a space and the value on the same line, unless
line position + value length + 2 (space and terminator) would exceed the
configured width — then a line break and one level deeper indentation
instead of the space. -/
def writeSimpleValue (cfg : FormatConfig) (depth linePos : Nat) (value : Chars) : Chars :=
  (if linePos + value.length + 2 > cfg.lineLength then
    '\n' :: indentChars cfg (depth + 1)
  else [' ']) ++ value

/-- The multi-line-string branch of `write_value!`: the value starts on
its own line one level deeper; each further non-empty line is indented to
the statement's depth plus `indent_width + 1` extra spaces. -/
def writeMultilineString (cfg : FormatConfig) (depth : Nat) (text : Chars) : Chars :=
  let lines := rustLines text
  let extraIndent := cfg.indentWidth + 1
  '\n' :: indentChars cfg (depth + 1) ++ lines.headD [] ++
    ((lines.drop 1).map (fun line =>
      '\n' :: (if line.isEmpty then [] else indentChars cfg depth ++ List.replicate extraIndent ' ')
        ++ line)).flatten

/-- The string-concatenation branch of `write_value!`: first fragment
inline, the rest on their own lines padded to align under the first
fragment, each fragment followed by its own comments. -/
def writeConcat (cfg : FormatConfig) (depth : Nat) (kwText : Chars)
    (concat : List (Chars × List Chars)) : Chars :=
  let pad := if kwText.length ≥ 2 then kwText.length - 2 else 0
  match concat with
  | [] => []
  | (s, comments) :: rest =>
    ' ' :: s ++ commentsInline comments ++
      (rest.map (fun frag =>
        '\n' :: indentChars cfg depth ++ List.replicate pad ' ' ++ " + ".toList ++ frag.1 ++
          commentsInline frag.2)).flatten

/-- `write_value!`: dispatch on the value kind, then the value
comments. `line_pos` is indentation width times depth plus the keyword
length. -/
def writeValue (cfg : FormatConfig) (depth : Nat) (kwText : Chars) (value : NodeValue)
    (valueComments : List Chars) : Chars :=
  let linePos := cfg.indentWidth * depth + kwText.length
  (match value with
   | .date text => writeSimpleValue cfg depth linePos text
   | .number text => writeSimpleValue cfg depth linePos text
   | .other text => writeSimpleValue cfg depth linePos text
   | .string text =>
     if text.contains '\n' then writeMultilineString cfg depth text
     else writeSimpleValue cfg depth linePos text
   | .stringConcatenation concat => writeConcat cfg depth kwText concat) ++
  commentsInline valueComments

mutual

/-- `write_node` (formatting.rs): print one node at the given depth,
ending with a line break. -/
def writeNode (cfg : FormatConfig) (depth : Nat) : Node → Chars
  | .statement kw kc v vc children pc =>
    indentChars cfg depth ++ writeKeyword kw kc ++
    (match v with
     | some value => writeValue cfg depth kw.text value vc
     | none => []) ++
    (match children with
     | some cs =>
       ' ' :: '{' :: commentsInline pc ++ '\n' ::
         (writeNodeList cfg (depth + 1) cs ++ indentChars cfg depth ++ ['}'])
     | none => ';' :: commentsInline pc) ++ ['\n']
  | .comment text => indentChars cfg depth ++ text ++ ['\n']
  | .emptyLine _ => ['\n']
termination_by structural n => n

/-- The `for child in children` traversal of `write_node`, also used for
the top-level loop of `format_yang`. -/
def writeNodeList (cfg : FormatConfig) (depth : Nat) : List Node → Chars
  | [] => []
  | n :: rest => writeNode cfg depth n ++ writeNodeList cfg depth rest
termination_by structural l => l

end

/-- `format_yang` (formatting.rs): parse, apply the formatting transform
to the root's children, and print every top-level node at depth 0. The
output sink cannot fail in this pure model, so the error type is the
parse error alone. -/
def formatYang (buffer : Chars) (cfg : FormatConfig) : Except ParseError Chars :=
  match parse buffer with
  | .error e => .error e
  | .ok tree => .ok (writeNodeList cfg 0 (processStatements none cfg tree.children))

/-- The spec's concrete scenario: `module foo { bar 'x' ; }` at width 79,
indent 2. -/
example :
    formatYang "module foo \x7b bar 'x' ; \x7d".toList ⟨.spaces 2, 79, false⟩ =
      .ok "module foo \x7b\n  bar \"x\";\n\x7d\n".toList := by rfl

/-! ## Claim C1 — idempotence -/

/-- The comment texts of a token stream. -/
def commentTexts (tokens : List Token) : List Chars :=
  (tokens.filter (fun t => t.tokenType = .comment)).map Token.text

/-- C1: the claimed idempotence `format (format s) = format s` fails on
the parseable input `foo "a\ ";` (with the default config, 2-space indent,
width 79). `strip_string` strips the space of the string value `"a\ "`,
leaving `"a\"` whose closing quote is escaped, so the formatted output
lexes as an unterminated string: formatting once succeeds, formatting the
output is a parse error. -/
theorem c1_format_not_idempotent_on_backslash_space :
    formatYang "foo \"a\\ \";".toList ⟨.spaces 2, 79, false⟩ =
      .ok "foo \"a\\\";\n".toList ∧
    formatYang "foo \"a\\\";\n".toList ⟨.spaces 2, 79, false⟩ =
      .error ⟨"Unexpected end of input, string was never terminated", 4⟩ :=
  ⟨rfl, rfl⟩

/-! ## Claim C2 — comment conservation -/

/-- C2: the claimed conservation of the multiset of comment texts fails on
the parseable input `foo // a\n// b\nbar;`. The two keyword comments
`// a` and `// b` are relocated to the post comments and printed after the
semicolon on one line; re-lexing the output finds a single comment
`// a // b` (the first line comment swallows the rest of the line), so
the output's comment multiset has one element where the input's has
two. -/
theorem c2_comment_multiset_not_conserved :
    (scan "foo // a\n// b\nbar;".toList).map commentTexts =
      .ok ["// a".toList, "// b".toList] ∧
    formatYang "foo // a\n// b\nbar;".toList ⟨.spaces 2, 79, false⟩ =
      .ok "foo bar; // a // b\n".toList ∧
    (scan "foo bar; // a // b\n".toList).map commentTexts =
      .ok ["// a // b".toList] ∧
    (["// a".toList, "// b".toList] : Multiset Chars) ≠ {"// a // b".toList} :=
  ⟨rfl, rfl, rfl, by decide⟩

/-! ## Claim C8 — carriage-return line breaks -/

/-- C8: at a carriage return followed by a line feed the lexer does NOT
produce a single LineBreak token of length 2: `scan_line_break` tests the
same index for `\r` and for `\n`, so its `\r\n` branch never fires, and
the `\r` (which `is_delimiter` does not recognize, since the
`CARRIAGE_RETURN` constant is defined as byte 10) is scanned by
`scan_other` into an `Other` token of length 1, followed by a LineBreak of
length 1 for the `\n`. A lone line feed does produce a LineBreak token of
length 1, as claimed. -/
theorem c8_crlf_is_not_a_single_line_break :
    scan ['\r', '\n'] =
      .ok [⟨.other, (0, 0), ['\r']⟩, ⟨.lineBreak, (1, 1), ['\n']⟩] ∧
    scanLineBreak ['\r', '\n'] 0 = none ∧
    scan ['\n'] = .ok [⟨.lineBreak, (0, 0), ['\n']⟩] :=
  ⟨rfl, rfl, rfl⟩

/-! ## Claim C3 — simple-value wrapping -/

/-- C3: for a statement value that is a `Date`, `Number`, `Other` or
single-line `String`, the printer writes a space and the value text on the
same line when the current column (indentation width times depth plus
keyword length) plus the value length plus 2 (space and terminator) does
not exceed the configured width, and otherwise writes the value alone on a
new line indented one level deeper; the value comments follow either
way. -/
theorem c3_simple_value_wrap (cfg : FormatConfig) (depth : Nat) (kwText : Chars)
    (v : NodeValue) (t : Chars) (vcs : List Chars)
    (hv : v = .date t ∨ v = .number t ∨ v = .other t ∨
      (v = .string t ∧ t.contains '\n' = false)) :
    writeValue cfg depth kwText v vcs =
      (if cfg.indentWidth * depth + kwText.length + t.length + 2 > cfg.lineLength then
        '\n' :: indentChars cfg (depth + 1) ++ t
      else ' ' :: t) ++ commentsInline vcs := by
  rcases hv with rfl | rfl | rfl | ⟨rfl, hnl⟩
  · by_cases h : cfg.indentWidth * depth + kwText.length + t.length + 2 > cfg.lineLength <;>
      simp [writeValue, writeSimpleValue, h]
  · by_cases h : cfg.indentWidth * depth + kwText.length + t.length + 2 > cfg.lineLength <;>
      simp [writeValue, writeSimpleValue, h]
  · by_cases h : cfg.indentWidth * depth + kwText.length + t.length + 2 > cfg.lineLength <;>
      simp [writeValue, writeSimpleValue, h]
  · have hnl' : ¬ ('\n' ∈ t) := by simpa using hnl
    by_cases h : cfg.indentWidth * depth + kwText.length + t.length + 2 > cfg.lineLength <;>
      simp [writeValue, writeSimpleValue, h, hnl']

/-- Witness for C3 at a concrete short value (the spec's
`description "x"`): printed inline as a space and the text. -/
theorem c3_simple_value_wrap_witness :
    ((NodeValue.string "\"x\"".toList) = .date "\"x\"".toList ∨
      (NodeValue.string "\"x\"".toList) = .number "\"x\"".toList ∨
      (NodeValue.string "\"x\"".toList) = .other "\"x\"".toList ∨
      ((NodeValue.string "\"x\"".toList) = .string "\"x\"".toList ∧
        ("\"x\"".toList).contains '\n' = false)) ∧
    writeValue ⟨.spaces 2, 79, false⟩ 0 "description".toList
        (.string "\"x\"".toList) [] =
      (if (FormatConfig.indentWidth ⟨.spaces 2, 79, false⟩) * 0 +
          ("description".toList).length + ("\"x\"".toList).length + 2 > 79 then
        '\n' :: indentChars ⟨.spaces 2, 79, false⟩ (0 + 1) ++ "\"x\"".toList
      else ' ' :: "\"x\"".toList) ++ commentsInline [] :=
  ⟨Or.inr (Or.inr (Or.inr ⟨rfl, by decide⟩)),
    c3_simple_value_wrap ⟨.spaces 2, 79, false⟩ 0 "description".toList
      (.string "\"x\"".toList) "\"x\"".toList []
      (Or.inr (Or.inr (Or.inr ⟨rfl, by decide⟩)))⟩

/-! ## Claim C4 — quote normalization -/

/-- C4: `convert_to_double_quotes` on a single-quoted value or
concatenation fragment `'inner'`: when the inner content contains no
double quote, both delimiters become double quotes and the inner content
is unchanged; when it does contain one, the value is left entirely
unchanged. Concatenation values are converted fragment by fragment. -/
theorem c4_quote_normalization (kw : StatementKeyword) (kc vc : List Chars)
    (ch : Option (List Node)) (pc : List Chars) (inner : Chars) :
    (convertToDoubleQuotes
        (.statement kw kc
          (some (.string ((SINGLE_QUOTE :: inner) ++ [SINGLE_QUOTE]))) vc ch pc) =
      .statement kw kc
        (some (.string
          (if inner.contains DOUBLE_QUOTE then (SINGLE_QUOTE :: inner) ++ [SINGLE_QUOTE]
           else (DOUBLE_QUOTE :: inner) ++ [DOUBLE_QUOTE]))) vc ch pc) ∧
    (∀ frags,
      convertToDoubleQuotes
          (.statement kw kc (some (.stringConcatenation frags)) vc ch pc) =
        .statement kw kc
          (some (.stringConcatenation (frags.map convertFragment))) vc ch pc) ∧
    (∀ comments,
      convertFragment ((SINGLE_QUOTE :: inner) ++ [SINGLE_QUOTE], comments) =
        ((if inner.contains DOUBLE_QUOTE then (SINGLE_QUOTE :: inner) ++ [SINGLE_QUOTE]
          else (DOUBLE_QUOTE :: inner) ++ [DOUBLE_QUOTE]), comments)) := by
  have hcontains : containsQuote (SINGLE_QUOTE :: (inner ++ [SINGLE_QUOTE])) =
      inner.contains DOUBLE_QUOTE := by
    simp [containsQuote, List.dropLast_concat]
  have hset : setDoubleQuotes (SINGLE_QUOTE :: (inner ++ [SINGLE_QUOTE])) =
      DOUBLE_QUOTE :: (inner ++ [DOUBLE_QUOTE]) := by
    rw [setDoubleQuotes,
      show DOUBLE_QUOTE :: ((SINGLE_QUOTE :: (inner ++ [SINGLE_QUOTE])).drop 1) =
        (DOUBLE_QUOTE :: inner) ++ [SINGLE_QUOTE] from rfl,
      List.dropLast_concat]
    simp
  refine ⟨?_, fun frags => by simp [convertToDoubleQuotes], fun comments => ?_⟩
  · by_cases hmem : DOUBLE_QUOTE ∈ inner <;>
      simp [convertToDoubleQuotes, isSingleQuoted, hcontains, hset, hmem]
  · by_cases hmem : DOUBLE_QUOTE ∈ inner <;>
      simp [convertFragment, isSingleQuoted, hcontains, hset, hmem]

/-! ## Claim C9 — the canonical-order toggle is a no-op -/

/-- The sibling passes do not depend on the config: the only configured
choice, the canonical-order toggle, guards `sortStatements`, which is the
identity. -/
theorem siblingPasses_config (p : Option Chars) (c1 c2 : FormatConfig) (l : List Node) :
    siblingPasses p c1 l = siblingPasses p c2 l := by
  simp [siblingPasses, sortStatements]

mutual

/-- The formatting transform does not depend on the config at all. -/
theorem processNode_config (c1 c2 : FormatConfig) :
    ∀ n : Node, processNode c1 n = processNode c2 n
  | .statement kw kc v vc (some children) pc => by
    simp only [processNode]
    rw [processNodeList_config c1 c2 children, siblingPasses_config _ c1 c2]
  | .statement _ _ _ _ none _ => by simp [processNode]
  | .comment _ => by simp [processNode]
  | .emptyLine _ => by simp [processNode]
termination_by structural n => n

/-- The formatting transform does not depend on the config at all
(list version). -/
theorem processNodeList_config (c1 c2 : FormatConfig) :
    ∀ l : List Node, processNodeList c1 l = processNodeList c2 l
  | [] => by simp [processNodeList]
  | n :: rest => by
    simp only [processNodeList]
    rw [processNode_config c1 c2 n, processNodeList_config c1 c2 rest]
termination_by structural l => l

end

mutual

/-- The printer never reads the canonical-order flag. -/
theorem writeNode_flag (ind : Indent) (len : Nat) (a b : Bool) :
    ∀ (depth : Nat) (n : Node),
      writeNode ⟨ind, len, a⟩ depth n = writeNode ⟨ind, len, b⟩ depth n
  | depth, .statement kw kc v vc (some cs) pc => by
    have h := writeNodeList_flag ind len a b (depth + 1) cs
    have hi : indentChars ⟨ind, len, a⟩ = indentChars ⟨ind, len, b⟩ := rfl
    have hv : writeValue ⟨ind, len, a⟩ = writeValue ⟨ind, len, b⟩ := rfl
    simp only [writeNode, h, hi, hv]
  | _, .statement _ _ _ _ none _ => rfl
  | _, .comment _ => rfl
  | _, .emptyLine _ => rfl
termination_by structural _ n => n

/-- The printer never reads the canonical-order flag (list version). -/
theorem writeNodeList_flag (ind : Indent) (len : Nat) (a b : Bool) :
    ∀ (depth : Nat) (l : List Node),
      writeNodeList ⟨ind, len, a⟩ depth l = writeNodeList ⟨ind, len, b⟩ depth l
  | _, [] => rfl
  | depth, n :: rest => by
    simp only [writeNodeList]
    rw [writeNode_flag ind len a b depth n, writeNodeList_flag ind len a b depth rest]
termination_by structural _ l => l

end

/-- C9: enabling the canonical-order toggle changes nothing: formatting
with `fix_canonical_order = true` produces exactly the output of
formatting with it disabled (same indent and width), because
`sort_statements` — whose body is commented out in the source — leaves
every sibling list unchanged. -/
theorem c9_canonical_order_toggle_noop (buffer : Chars) (ind : Indent) (len : Nat) :
    formatYang buffer ⟨ind, len, true⟩ = formatYang buffer ⟨ind, len, false⟩ ∧
    (∀ (parent : Option Chars) (statements : List Node),
      sortStatements parent statements = statements) := by
  refine ⟨?_, fun _ _ => rfl⟩
  unfold formatYang
  cases hp : parse buffer with
  | error e => rfl
  | ok tree =>
    simp only [processStatements]
    rw [processNodeList_config ⟨ind, len, true⟩ ⟨ind, len, false⟩,
      siblingPasses_config _ ⟨ind, len, true⟩ ⟨ind, len, false⟩,
      writeNodeList_flag ind len true false]

/-! ## Claim C5 — blank-line bounds after the transform -/

/-- A sibling list with no two adjacent `EmptyLine` nodes that neither
begins nor ends with an `EmptyLine`. -/
def goodSiblingList (l : List Node) : Prop :=
  List.Chain' (fun a b => ¬ (a.isEmptyLine = true ∧ b.isEmptyLine = true)) l ∧
  (∀ n, l.head? = some n → n.isEmptyLine = false) ∧
  (∀ n, l.getLast? = some n → n.isEmptyLine = false)

mutual

/-- Every sibling list inside this node satisfies `goodSiblingList`. -/
def nodeEmptyLinesGood : Node → Prop
  | .statement _ _ _ _ (some children) _ =>
    goodSiblingList children ∧ nodesEmptyLinesGood children
  | _ => True
termination_by structural n => n

/-- Every sibling list inside any node of this list satisfies
`goodSiblingList`. -/
def nodesEmptyLinesGood : List Node → Prop
  | [] => True
  | n :: rest => nodeEmptyLinesGood n ∧ nodesEmptyLinesGood rest
termination_by structural l => l

end

theorem nodesEmptyLinesGood_iff {l : List Node} :
    nodesEmptyLinesGood l ↔ ∀ n ∈ l, nodeEmptyLinesGood n := by
  induction l with
  | nil => simp [nodesEmptyLinesGood]
  | cons n rest ih => simp [nodesEmptyLinesGood, ih]

theorem head?_dropWhile_not {α : Type} (p : α → Bool) (l : List α) {n : α}
    (h : (l.dropWhile p).head? = some n) : p n = false := by
  induction l with
  | nil => rw [List.dropWhile_nil] at h; simp at h
  | cons a l ih =>
    rw [List.dropWhile_cons] at h
    by_cases hp : p a = true
    · exact ih (by rwa [if_pos hp] at h)
    · rw [if_neg hp] at h
      simp only [List.head?_cons, Option.some.injEq] at h
      subst h
      simpa using hp

theorem trimLineBreaks_head? {l : List Node} {n : Node}
    (h : (trimLineBreaks l).head? = some n) : n.isEmptyLine = false := by
  unfold trimLineBreaks at h
  set l1 := l.dropWhile Node.isEmptyLine with hl1
  have hsplit : l1.reverse.takeWhile Node.isEmptyLine ++
      l1.reverse.dropWhile Node.isEmptyLine = l1.reverse :=
    List.takeWhile_append_dropWhile _ _
  set x := l1.reverse.dropWhile Node.isEmptyLine with hx
  have hl1eq : l1 = x.reverse ++ (l1.reverse.takeWhile Node.isEmptyLine).reverse := by
    have := congrArg List.reverse hsplit
    simpa [List.reverse_append] using this.symm
  have hhead : l1.head? = some n := by
    rw [hl1eq, List.head?_append]
    rw [show (l1.reverse.dropWhile Node.isEmptyLine).reverse.head? = some n from h]
    rfl
  exact head?_dropWhile_not _ _ hhead

theorem trimLineBreaks_getLast? {l : List Node} {n : Node}
    (h : (trimLineBreaks l).getLast? = some n) : n.isEmptyLine = false := by
  unfold trimLineBreaks at h
  rw [List.getLast?_reverse] at h
  exact head?_dropWhile_not _ _ h

theorem squashGo_chain' (ys : List Node) :
    ∀ prev : Node,
      List.Chain' (fun a b => ¬ (a.isEmptyLine = true ∧ b.isEmptyLine = true))
        (prev :: squashGo prev ys) := by
  induction ys with
  | nil => intro prev; simp [squashGo]
  | cons y ys ih =>
    intro prev
    rw [squashGo]
    by_cases hc : y.isEmptyLine = true ∧ prev.isEmptyLine = true
    · simpa [hc] using ih prev
    · simp only [hc, if_false]
      exact List.Chain'.cons (fun hab => hc ⟨hab.2, hab.1⟩) (ih y)

theorem squashLineBreaks_chain' (l : List Node) :
    List.Chain' (fun a b => ¬ (a.isEmptyLine = true ∧ b.isEmptyLine = true))
      (squashLineBreaks l) := by
  cases l with
  | nil => simp [squashLineBreaks]
  | cons x xs => exact (squashGo_chain' xs x)

theorem squashLineBreaks_head? (l : List Node) :
    (squashLineBreaks l).head? = l.head? := by
  cases l <;> simp [squashLineBreaks]

theorem squashGo_getLast? {ys : List Node} {n : Node}
    (hlast : ys.getLast? = some n) (hne : n.isEmptyLine = false) :
    ∀ prev, (squashGo prev ys).getLast? = some n := by
  induction ys with
  | nil => simp at hlast
  | cons y ys ih =>
    intro prev
    cases ys with
    | nil =>
      simp only [List.getLast?_singleton, Option.some.injEq] at hlast
      subst hlast
      rw [squashGo]
      simp [hne, squashGo]
    | cons z zs =>
      rw [List.getLast?_cons_cons] at hlast
      rw [squashGo]
      by_cases hc2 : y.isEmptyLine = true ∧ prev.isEmptyLine = true
      · simp only [hc2, if_true]
        exact ih hlast prev
      · simp only [hc2, if_false]
        have htl := ih hlast y
        have hne2 : squashGo y (z :: zs) ≠ [] := by
          intro hnil; rw [hnil] at htl; simp at htl
        obtain ⟨w, ws, hws⟩ := List.exists_cons_of_ne_nil hne2
        rw [hws, List.getLast?_cons_cons]
        rw [hws] at htl
        exact htl

theorem squashLineBreaks_getLast? {l : List Node} {n : Node}
    (hlast : l.getLast? = some n) (hne : n.isEmptyLine = false) :
    (squashLineBreaks l).getLast? = some n := by
  cases l with
  | nil => simp at hlast
  | cons x xs =>
    cases xs with
    | nil =>
      simp only [List.getLast?_singleton, Option.some.injEq] at hlast
      subst hlast
      simp [squashLineBreaks, squashGo]
    | cons z zs =>
      rw [List.getLast?_cons_cons] at hlast
      rw [squashLineBreaks]
      have htl := squashGo_getLast? hlast hne x
      have hne2 : squashGo x (z :: zs) ≠ [] := by
        intro hnil; rw [hnil] at htl; simp at htl
      obtain ⟨w, ws, hws⟩ := List.exists_cons_of_ne_nil hne2
      rw [hws, List.getLast?_cons_cons]
      rw [hws] at htl
      exact htl

theorem goodSiblingList_squash_trim (l : List Node) :
    goodSiblingList (squashLineBreaks (trimLineBreaks l)) := by
  refine ⟨squashLineBreaks_chain' _, ?_, ?_⟩
  · intro n h
    rw [squashLineBreaks_head?] at h
    exact trimLineBreaks_head? h
  · intro n h
    cases hlast : (trimLineBreaks l).getLast? with
    | none =>
      have : trimLineBreaks l = [] := List.getLast?_eq_none_iff.mp hlast
      rw [this] at h
      simp [squashLineBreaks] at h
    | some m =>
      have hm : m.isEmptyLine = false := trimLineBreaks_getLast? hlast
      have := squashLineBreaks_getLast? hlast hm
      rw [this] at h
      injection h with h
      rw [← h]
      exact hm

theorem mem_squashGo {n : Node} : ∀ {prev : Node} {ys : List Node},
    n ∈ squashGo prev ys → n ∈ ys := by
  intro prev ys
  induction ys generalizing prev with
  | nil => simp [squashGo]
  | cons y ys ih =>
    intro h
    rw [squashGo] at h
    by_cases hc : y.isEmptyLine = true ∧ prev.isEmptyLine = true
    · rw [if_pos hc] at h
      exact List.mem_cons_of_mem _ (ih h)
    · rw [if_neg hc] at h
      rcases List.mem_cons.mp h with rfl | h
      · exact List.mem_cons_self _ _
      · exact List.mem_cons_of_mem _ (ih h)

theorem mem_squashLineBreaks {n : Node} {l : List Node}
    (h : n ∈ squashLineBreaks l) : n ∈ l := by
  cases l with
  | nil => simp [squashLineBreaks] at h
  | cons x xs =>
    rw [squashLineBreaks] at h
    rcases List.mem_cons.mp h with rfl | h
    · exact List.mem_cons_self _ _
    · exact List.mem_cons_of_mem _ (mem_squashGo h)

theorem mem_trimLineBreaks {n : Node} {l : List Node}
    (h : n ∈ trimLineBreaks l) : n ∈ l := by
  unfold trimLineBreaks at h
  rw [List.mem_reverse] at h
  have h2 := (List.dropWhile_sublist _ (l := (l.dropWhile Node.isEmptyLine).reverse)).subset h
  rw [List.mem_reverse] at h2
  exact (List.dropWhile_sublist _).subset h2

theorem relocateNode_isEmptyLine (n : Node) :
    (relocateNode n).isEmptyLine = n.isEmptyLine := by
  cases n <;> rfl

theorem nodeEmptyLinesGood_statement (kw : StatementKeyword) (kc : List Chars)
    (v : Option NodeValue) (vc : List Chars) (ch : Option (List Node)) (pc : List Chars) :
    nodeEmptyLinesGood (.statement kw kc v vc ch pc) ↔
      ∀ cs, ch = some cs → goodSiblingList cs ∧ nodesEmptyLinesGood cs := by
  cases ch <;> simp [nodeEmptyLinesGood]

theorem relocateNode_good (n : Node) :
    nodeEmptyLinesGood (relocateNode n) ↔ nodeEmptyLinesGood n := by
  cases n with
  | statement kw kc v vc ch pc =>
    rw [relocateNode, nodeEmptyLinesGood_statement, nodeEmptyLinesGood_statement]
  | comment t => exact Iff.rfl
  | emptyLine t => exact Iff.rfl

theorem goodSiblingList_relocate {l : List Node} (h : goodSiblingList l) :
    goodSiblingList (relocatePreBlockComments l) := by
  obtain ⟨hch, hhd, hlst⟩ := h
  refine ⟨?_, ?_, ?_⟩
  · rw [relocatePreBlockComments, List.chain'_map]
    exact hch.imp (fun _ _ hab hab2 => hab (by rwa [relocateNode_isEmptyLine, relocateNode_isEmptyLine] at hab2))
  · intro n hn
    rw [relocatePreBlockComments, List.head?_map] at hn
    cases hm : l.head? with
    | none => rw [hm] at hn; simp at hn
    | some m =>
      rw [hm] at hn
      simp only [Option.map_some', Option.some.injEq] at hn
      rw [← hn, relocateNode_isEmptyLine]
      exact hhd m hm
  · intro n hn
    rw [relocatePreBlockComments, List.getLast?_map] at hn
    cases hm : l.getLast? with
    | none => rw [hm] at hn; simp at hn
    | some m =>
      rw [hm] at hn
      simp only [Option.map_some', Option.some.injEq] at hn
      rw [← hn, relocateNode_isEmptyLine]
      exact hlst m hm

theorem goodSiblingList_siblingPasses (p : Option Chars) (cfg : FormatConfig)
    (l : List Node) : goodSiblingList (siblingPasses p cfg l) := by
  simp only [siblingPasses, sortStatements, ite_self]
  exact goodSiblingList_relocate (goodSiblingList_squash_trim l)

theorem nodesGood_siblingPasses {l : List Node} (h : nodesEmptyLinesGood l)
    (p : Option Chars) (cfg : FormatConfig) :
    nodesEmptyLinesGood (siblingPasses p cfg l) := by
  rw [nodesEmptyLinesGood_iff] at h ⊢
  intro n hn
  simp only [siblingPasses, sortStatements, ite_self, relocatePreBlockComments] at hn
  obtain ⟨m, hm, rfl⟩ := List.mem_map.mp hn
  exact (relocateNode_good m).mpr (h m (mem_trimLineBreaks (mem_squashLineBreaks hm)))

theorem convertToDoubleQuotes_good (n : Node) :
    nodeEmptyLinesGood (convertToDoubleQuotes n) ↔ nodeEmptyLinesGood n := by
  cases n with
  | statement kw kc v vc ch pc =>
    match v with
    | none => exact Iff.rfl
    | some (.string s) =>
      simp only [convertToDoubleQuotes]
      split
      · exact Iff.rfl
      · rw [nodeEmptyLinesGood_statement, nodeEmptyLinesGood_statement]
    | some (.stringConcatenation f) =>
      simp only [convertToDoubleQuotes]
      rw [nodeEmptyLinesGood_statement, nodeEmptyLinesGood_statement]
    | some (.number t) => exact Iff.rfl
    | some (.date t) => exact Iff.rfl
    | some (.other t) => exact Iff.rfl
  | comment t => exact Iff.rfl
  | emptyLine t => exact Iff.rfl

theorem stripString_good (n : Node) :
    nodeEmptyLinesGood (stripString n) ↔ nodeEmptyLinesGood n := by
  cases n with
  | statement kw kc v vc ch pc =>
    match v with
    | none => exact Iff.rfl
    | some (.string s) =>
      simp only [stripString]
      rw [nodeEmptyLinesGood_statement, nodeEmptyLinesGood_statement]
    | some (.stringConcatenation f) => exact Iff.rfl
    | some (.number t) => exact Iff.rfl
    | some (.date t) => exact Iff.rfl
    | some (.other t) => exact Iff.rfl
  | comment t => exact Iff.rfl
  | emptyLine t => exact Iff.rfl

theorem dedentMultilinedString_good (n : Node) :
    nodeEmptyLinesGood (dedentMultilinedString n) ↔ nodeEmptyLinesGood n := by
  cases n with
  | statement kw kc v vc ch pc =>
    match v with
    | none => exact Iff.rfl
    | some (.string s) =>
      simp only [dedentMultilinedString]
      split
      · exact Iff.rfl
      · split
        · exact Iff.rfl
        · rw [nodeEmptyLinesGood_statement, nodeEmptyLinesGood_statement]
    | some (.stringConcatenation f) => exact Iff.rfl
    | some (.number t) => exact Iff.rfl
    | some (.date t) => exact Iff.rfl
    | some (.other t) => exact Iff.rfl
  | comment t => exact Iff.rfl
  | emptyLine t => exact Iff.rfl

theorem valuePasses_good (n : Node) :
    nodeEmptyLinesGood (dedentMultilinedString (stripString (convertToDoubleQuotes n))) ↔
      nodeEmptyLinesGood n := by
  rw [dedentMultilinedString_good, stripString_good, convertToDoubleQuotes_good]

mutual

/-- After the transform, every sibling list inside the processed node is
well-formed with respect to blank lines. -/
theorem processNode_emptyLinesGood (cfg : FormatConfig) :
    ∀ n : Node, nodeEmptyLinesGood (processNode cfg n)
  | .statement kw kc v vc (some children) pc => by
    have hrec := processNodeList_emptyLinesGood cfg children
    simp only [processNode]
    rw [valuePasses_good, nodeEmptyLinesGood_statement]
    intro cs hcs
    injection hcs with hcs
    rw [← hcs]
    exact ⟨goodSiblingList_siblingPasses _ _ _, nodesGood_siblingPasses hrec _ _⟩
  | .statement kw kc v vc none pc => by
    simp only [processNode]
    rw [valuePasses_good, nodeEmptyLinesGood_statement]
    intro cs hcs
    cases hcs
  | .comment t => by
    simp only [processNode]
    rw [valuePasses_good]
    trivial
  | .emptyLine t => by
    simp only [processNode]
    rw [valuePasses_good]
    trivial
termination_by structural n => n

/-- After the transform, every sibling list inside any processed node of
the list is well-formed with respect to blank lines. -/
theorem processNodeList_emptyLinesGood (cfg : FormatConfig) :
    ∀ l : List Node, nodesEmptyLinesGood (processNodeList cfg l)
  | [] => by simp [processNodeList, nodesEmptyLinesGood]
  | n :: rest => by
    simp only [processNodeList]
    exact ⟨processNode_emptyLinesGood cfg n, processNodeList_emptyLinesGood cfg rest⟩
termination_by structural l => l

end

/-- C5: after the formatting transform, every sibling list in the tree —
the processed root list itself and, recursively, every statement's
children list — contains no two consecutive `EmptyLine` nodes and neither
begins nor ends with an `EmptyLine` node. -/
theorem c5_no_leading_trailing_or_double_blank_lines (parent : Option Chars)
    (cfg : FormatConfig) (statements : List Node) :
    goodSiblingList (processStatements parent cfg statements) ∧
    nodesEmptyLinesGood (processStatements parent cfg statements) := by
  unfold processStatements
  exact ⟨goodSiblingList_siblingPasses _ _ _,
    nodesGood_siblingPasses (processNodeList_emptyLinesGood cfg statements) _ _⟩

/-! ## Claim C7 — unbalanced braces are fatal errors -/

/-- C7: unbalanced braces always fail with a positional error. Consuming a
closing brace while only the root sibling list remains on the stack
produces the unexpected-closing-brace error at the brace's position;
reaching end-of-input with more than one open sibling list produces the
unclosed-block error at the last seen position; concretely, parsing
`foo { bar;` fails with the unclosed-block error. -/
theorem c7_unbalanced_braces_fail (s : BuilderState) :
    (∀ t rest l, s.rem = t :: rest → t.tokenType = .closingCurlyBrace →
      s.stack = [l] →
      parseStep s = .error ⟨"Unexpected closing curly brace", t.span.1⟩) ∧
    (s.rem = [] → s.stack.length > 1 →
      parseStep s = .error ⟨"Unclosed block at end of file", s.prevTokenPos⟩) ∧
    parse "foo \x7b bar;".toList = .error ⟨"Unclosed block at end of file", 6⟩ := by
  refine ⟨?_, ?_, by rfl⟩
  · rintro ⟨tt, sp, tx⟩ rest l hrem htt hstack
    subst htt
    rw [parseStep, hrem, hstack]
  · intro hrem hlen
    rw [parseStep, hrem, if_pos hlen]

/-- Witness for C7 at concrete states: a closing brace on a one-list
stack errors, and end-of-input with two open lists errors. -/
theorem c7_unbalanced_braces_fail_witness :
    parseStep ⟨[⟨.closingCurlyBrace, (0, 0), ['\x7d']⟩], [[]], false, 0⟩ =
      .error ⟨"Unexpected closing curly brace", 0⟩ ∧
    parseStep ⟨[], [[], []], false, 9⟩ =
      .error ⟨"Unclosed block at end of file", 9⟩ :=
  ⟨(c7_unbalanced_braces_fail ⟨[⟨.closingCurlyBrace, (0, 0), ['\x7d']⟩], [[]], false, 0⟩).1
      ⟨.closingCurlyBrace, (0, 0), ['\x7d']⟩ [] [] rfl rfl rfl,
    (c7_unbalanced_braces_fail ⟨[], [[], []], false, 9⟩).2.1 rfl (by decide)⟩

/-! ## Reachable states of the tree builder

`parseReaches` is the reflexive-transitive closure of single non-final
iterations of the builder's loop; the invariants of claims C6 and C10 are
stated over it. -/

/-- One non-final loop iteration. -/
def parseStepsTo (s s' : BuilderState) : Prop :=
  parseStep s = .ok (.inl s')

/-- State `s'` occurs during the run of the builder's loop started at
`s`. -/
def parseReaches (s s' : BuilderState) : Prop :=
  Relation.ReflTransGen parseStepsTo s s'

/-- C10's stack invariant: the stack of open sibling lists is never
empty, and every non-top list ends with a statement node (the statement
that opened the block whose siblings are collected above it). -/
def stackOk (s : BuilderState) : Prop :=
  s.stack ≠ [] ∧
  ∀ l ∈ s.stack.tail, ∃ kw kc v vc ch pc,
    l.getLast? = some (Node.statement kw kc v vc ch pc)

/-- The statement parser only ever returns a statement node. -/
theorem parseStatement_ok_statement {toks : List Token} {node : Node} {b : Bool}
    {rest : List Token} (h : parseStatement toks = .ok ((node, b), rest)) :
    ∃ kw kc v vc pc, node = .statement kw kc v vc none pc := by
  unfold parseStatement at h
  cases hps : psLoop .clean none toks with
  | error e => rw [hps] at h; exact absurd h (by simp)
  | ok res =>
    obtain ⟨state, lastPos, rest'⟩ := res
    rw [hps] at h
    cases state with
    | gotStatement kw kc v vc ob pc =>
      dsimp only at h
      rcases hpc : postCommentsLoop pc rest' with ⟨pc2, rest2⟩
      rw [hpc] at h
      simp only [Except.ok.injEq, Prod.mk.injEq] at h
      obtain ⟨⟨hnode, -⟩, -⟩ := h
      exact ⟨_, _, _, _, _, hnode.symm⟩
    | clean => exact absurd h (by simp)
    | gotKeyword kw kc => exact absurd h (by simp)
    | gotValue kw kc v vc => exact absurd h (by simp)
    | gotStringConcat kw kc concat ps => exact absurd h (by simp)

theorem stackOk_step {s s' : BuilderState} (hinv : stackOk s)
    (hstep : parseStepsTo s s') : stackOk s' := by
  obtain ⟨hne, htail⟩ := hinv
  unfold parseStepsTo parseStep at hstep
  rcases s with ⟨rem, stack, flag, pos⟩
  dsimp only at hstep htail hne
  cases rem with
  | nil =>
    dsimp only at hstep
    split at hstep
    · exact absurd hstep (by simp)
    · split at hstep
      · exact absurd hstep (by simp)
      · exact absurd hstep (by simp)
  | cons t rest =>
    dsimp only at hstep
    cases stack with
    | nil => exact absurd hstep (by simp)
    | cons top stackRest =>
      dsimp only at hstep
      rcases t with ⟨tt, sp, tx⟩
      dsimp only at hstep
      cases tt
      case whiteSpace =>
        obtain rfl := Sum.inl.inj (Except.ok.inj hstep)
        exact ⟨by simp, fun l hl => htail l (by simpa using hl)⟩
      case lineBreak =>
        obtain rfl := Sum.inl.inj (Except.ok.inj hstep)
        exact ⟨by simp, fun l hl => htail l (by simpa using hl)⟩
      case comment =>
        obtain rfl := Sum.inl.inj (Except.ok.inj hstep)
        exact ⟨by simp, fun l hl => htail l (by simpa using hl)⟩
      case closingCurlyBrace =>
        cases stackRest with
        | nil => exact absurd hstep (by simp)
        | cons prevNodes stackRest' =>
          dsimp only at hstep
          split at hstep
          · obtain rfl := Sum.inl.inj (Except.ok.inj hstep)
            refine ⟨by simp, fun l hl => ?_⟩
            exact htail l (List.mem_cons_of_mem _ (by simpa using hl))
          · exact absurd hstep (by simp)
      all_goals
        dsimp only at hstep
        split at hstep
        · exact absurd hstep (by simp)
        · rename_i stmtNode opensBlock rest2 hps
          obtain rfl := Sum.inl.inj (Except.ok.inj hstep)
          obtain ⟨kw, kc, v, vc, pc, rfl⟩ := parseStatement_ok_statement hps
          cases opensBlock
          · refine ⟨by simp, fun l hl => ?_⟩
            simp only [if_neg (by simp : ¬ (false = true))] at hl
            exact htail l (by simpa using hl)
          · refine ⟨by simp, fun l hl => ?_⟩
            simp only [if_pos rfl] at hl
            rcases List.mem_cons.mp (by simpa using hl) with rfl | hl2
            · exact ⟨kw, kc, v, vc, none, pc, by rw [List.getLast?_concat]⟩
            · exact htail l hl2

/-- C10: tree-builder safety. In every state the builder's loop can reach,
the stack of sibling lists is non-empty and every non-top list ends with a
statement node; consequently, when a closing brace is consumed with at
least two lists on the stack, the builder always takes the ordinary
attach-children step — the `unreachable!` branch of the close-brace
handler and the stack-nonempty `expect`s can never fire. -/
theorem c10_close_brace_panic_unreachable (tokens : List Token) (s : BuilderState)
    (h : parseReaches (initState tokens) s) :
    stackOk s ∧
    (∀ t rest top prevNodes stackRest, s.rem = t :: rest →
      t.tokenType = .closingCurlyBrace → s.stack = top :: prevNodes :: stackRest →
      ∃ s', parseStep s = .ok (.inl s')) := by
  have hs : stackOk s := by
    induction h with
    | refl => exact ⟨by simp [initState], by simp [initState]⟩
    | tail h1 h2 ih => exact stackOk_step ih h2
  refine ⟨hs, ?_⟩
  rintro ⟨tt, sp, tx⟩ rest top prevNodes stackRest hrem htt hstack
  dsimp only at htt
  subst htt
  obtain ⟨hne, htail⟩ := hs
  have hprev : prevNodes ∈ s.stack.tail := by rw [hstack]; simp
  obtain ⟨kw, kc, v, vc, ch, pc, hlast⟩ := htail prevNodes hprev
  refine ⟨⟨rest,
    (prevNodes.dropLast ++ [Node.statement kw kc v vc (some top) pc]) :: stackRest,
    false, sp.1⟩, ?_⟩
  unfold parseStep
  rw [hrem, hstack]
  dsimp only
  rw [hlast]

/-- Witness for C10: the state reached after parsing `a {` out of `a { }`
has the open block's statement at the end of the non-top list, and the
closing brace steps normally. -/
theorem c10_close_brace_panic_unreachable_witness :
    stackOk ⟨[⟨.closingCurlyBrace, (4, 4), ['\x7d']⟩],
      [[], [.statement (.invalid ['a']) [] none [] none []]], false, 0⟩ ∧
    ∃ s', parseStep ⟨[⟨.closingCurlyBrace, (4, 4), ['\x7d']⟩],
      [[], [.statement (.invalid ['a']) [] none [] none []]], false, 0⟩ =
        .ok (.inl s') := by
  have h := c10_close_brace_panic_unreachable
    [⟨.other, (0, 0), ['a']⟩, ⟨.whiteSpace, (1, 1), [' ']⟩,
      ⟨.openCurlyBrace, (2, 2), ['\x7b']⟩, ⟨.whiteSpace, (3, 3), [' ']⟩,
      ⟨.closingCurlyBrace, (4, 4), ['\x7d']⟩]
    ⟨[⟨.closingCurlyBrace, (4, 4), ['\x7d']⟩],
      [[], [.statement (.invalid ['a']) [] none [] none []]], false, 0⟩
    (Relation.ReflTransGen.single (by rfl))
  exact ⟨h.1, h.2 ⟨.closingCurlyBrace, (4, 4), ['\x7d']⟩ [] []
    [.statement (.invalid ['a']) [] none [] none []] [] rfl rfl rfl⟩

/-! ## Claim C6 — blank-line detection -/

/-- The last token of a stream prefix that is not whitespace. -/
def lastNonWhitespace (l : List Token) : Option Token :=
  (l.filter (fun t => ¬ t.tokenType = .whiteSpace)).getLast?

/-- The claim's notion of "the previous non-whitespace token was a line
break", as a function of the consumed stream prefix. -/
def prevNonWsWasLineBreak (l : List Token) : Bool :=
  match lastNonWhitespace l with
  | some t => decide (t.tokenType = .lineBreak)
  | none => false

/-- A `continueWith` outcome of the loop body never carries a
`gotStatement` state. -/
theorem psLoopBody_continue_not_gotStatement {state : ParseState} {token : Token}
    {next : ParseState} (hb : psLoopBody state token = .continueWith next) :
    ∀ kw kc v vc ob pc, next ≠ .gotStatement kw kc v vc ob pc := by
  unfold psLoopBody at hb
  split at hb
  all_goals try split at hb
  all_goals try split at hb
  all_goals try split at hb
  all_goals
    cases hb <;> (intro kw kc v vc ob pc hcon; exact ParseState.noConfusion hcon)

/-- A `finish` outcome of the loop body only ever happens on a semicolon
or an opening brace. -/
theorem psLoopBody_finish_terminator {state : ParseState} {token : Token}
    {final : ParseState} (hb : psLoopBody state token = .finish final) :
    token.tokenType = .semiColon ∨ token.tokenType = .openCurlyBrace := by
  unfold psLoopBody at hb
  split at hb
  all_goals try split at hb
  all_goals try split at hb
  all_goals try split at hb
  all_goals
    first
    | exact Or.inl ‹token.tokenType = TokenType.semiColon›
    | exact Or.inr ‹token.tokenType = TokenType.openCurlyBrace›
    | cases hb

/-- The statement parser's token loop ends (successfully, in a finished
statement) exactly by consuming a semicolon or an opening brace: the
consumed tokens are `pre ++ [t]` with `t` the terminator. -/
theorem psLoop_consumed :
    ∀ (toks : List Token) (state : ParseState) (lastPos : Option Nat)
      (stfinal : ParseState) (lp : Option Nat) (rest : List Token),
      (∀ kw kc v vc ob pc, state ≠ .gotStatement kw kc v vc ob pc) →
      psLoop state lastPos toks = .ok (stfinal, lp, rest) →
      (∃ kw kc v vc ob pc, stfinal = .gotStatement kw kc v vc ob pc) →
      ∃ pre t, toks = pre ++ t :: rest ∧
        (t.tokenType = .semiColon ∨ t.tokenType = .openCurlyBrace) := by
  intro toks
  induction toks with
  | nil =>
    intro state lastPos stfinal lp rest hstate h hfinal
    rw [psLoop] at h
    simp only [Except.ok.injEq, Prod.mk.injEq] at h
    obtain ⟨rfl, -, -⟩ := h
    obtain ⟨kw, kc, v, vc, ob, pc, hf⟩ := hfinal
    exact absurd hf (hstate kw kc v vc ob pc)
  | cons token toks ih =>
    intro state lastPos stfinal lp rest hstate h hfinal
    rw [psLoop] at h
    cases hb : psLoopBody state token with
    | continueWith next =>
      rw [hb] at h
      obtain ⟨pre, t, heq, hty⟩ :=
        ih next (some token.span.1) stfinal lp rest
          (psLoopBody_continue_not_gotStatement hb) h hfinal
      exact ⟨token :: pre, t, by rw [heq]; rfl, hty⟩
    | finish final =>
      rw [hb] at h
      simp only [Except.ok.injEq, Prod.mk.injEq] at h
      obtain ⟨-, -, rfl⟩ := h
      exact ⟨[], token, rfl, psLoopBody_finish_terminator hb⟩
    | fail e =>
      rw [hb] at h
      exact absurd h (by simp)

/-- The trailing-trivia loop only consumes whitespace and comment
tokens. -/
theorem postCommentsLoop_consumed :
    ∀ (toks : List Token) (acc pc : List Chars) (rest : List Token),
      postCommentsLoop acc toks = (pc, rest) →
      ∃ pre, toks = pre ++ rest ∧
        ∀ t ∈ pre, t.tokenType = .whiteSpace ∨ t.tokenType = .comment := by
  intro toks
  induction toks with
  | nil =>
    intro acc pc rest h
    rw [postCommentsLoop] at h
    simp only [Prod.mk.injEq] at h
    obtain ⟨-, rfl⟩ := h
    exact ⟨[], rfl, by simp⟩
  | cons token toks ih =>
    intro acc pc rest h
    rw [postCommentsLoop] at h
    split at h
    · obtain ⟨pre, heq, hmem⟩ := ih _ _ _ h
      refine ⟨token :: pre, by rw [heq]; rfl, ?_⟩
      intro t ht
      rcases List.mem_cons.mp ht with rfl | ht2
      · exact Or.inl ‹t.tokenType = TokenType.whiteSpace›
      · exact hmem t ht2
    · obtain ⟨pre, heq, hmem⟩ := ih _ _ _ h
      refine ⟨token :: pre, by rw [heq]; rfl, ?_⟩
      intro t ht
      rcases List.mem_cons.mp ht with rfl | ht2
      · exact Or.inr ‹t.tokenType = TokenType.comment›
      · exact hmem t ht2
    · simp only [Prod.mk.injEq] at h
      obtain ⟨-, rfl⟩ := h
      exact ⟨[], rfl, by simp⟩

theorem lastNonWhitespace_append (l1 l2 : List Token) :
    lastNonWhitespace (l1 ++ l2) =
      (lastNonWhitespace l2).or (lastNonWhitespace l1) := by
  unfold lastNonWhitespace
  rw [List.filter_append, List.getLast?_append]

/-- Whatever tokens `parse_statement` consumes, the last non-whitespace
one among them is the statement's terminator or a trailing comment —
never a line break; hence after a statement the builder's
previous-non-whitespace token is never a line break, no matter what was
consumed before the statement. -/
theorem parseStatement_consumed {toks : List Token} {node : Node} {b : Bool}
    {rest : List Token} (h : parseStatement toks = .ok ((node, b), rest)) :
    ∃ pre, toks = pre ++ rest ∧
      ∀ older : List Token, prevNonWsWasLineBreak (older ++ pre) = false := by
  unfold parseStatement at h
  cases hps : psLoop .clean none toks with
  | error e => rw [hps] at h; exact absurd h (by simp)
  | ok res =>
    obtain ⟨state, lastPos, rest1⟩ := res
    rw [hps] at h
    cases state with
    | clean => exact absurd h (by simp)
    | gotKeyword kw kc => exact absurd h (by simp)
    | gotValue kw kc v vc => exact absurd h (by simp)
    | gotStringConcat kw kc concat ps => exact absurd h (by simp)
    | gotStatement kw kc v vc ob pc =>
      dsimp only at h
      rcases hpc : postCommentsLoop pc rest1 with ⟨pc2, rest2⟩
      rw [hpc] at h
      simp only [Except.ok.injEq, Prod.mk.injEq] at h
      obtain ⟨-, rfl⟩ := h
      obtain ⟨pre1, t, heq1, hty⟩ :=
        psLoop_consumed toks .clean none _ _ _
          (by intro kw kc v vc ob pc hcon; exact ParseState.noConfusion hcon) hps
          ⟨kw, kc, v, vc, ob, pc, rfl⟩
      obtain ⟨pre2, heq2, hmem2⟩ := postCommentsLoop_consumed rest1 pc pc2 rest2 hpc
      refine ⟨pre1 ++ t :: pre2, by rw [heq1, heq2]; simp, ?_⟩
      intro older
      unfold prevNonWsWasLineBreak
      have hlast : lastNonWhitespace (older ++ (pre1 ++ t :: pre2)) =
          lastNonWhitespace (t :: pre2) := by
        rw [lastNonWhitespace_append, lastNonWhitespace_append]
        have hne : lastNonWhitespace (t :: pre2) ≠ none := by
          unfold lastNonWhitespace
          have : ¬ t.tokenType = TokenType.whiteSpace := by
            rcases hty with hty | hty <;> simp [hty]
          simp only [List.filter_cons, this]
          simp
        cases hl : lastNonWhitespace (t :: pre2) with
        | none => exact absurd hl hne
        | some x => rfl
      rw [hlast]
      cases hl : lastNonWhitespace (t :: pre2) with
      | none => rfl
      | some x =>
        have hx : x ∈ t :: pre2.filter (fun u => ¬ u.tokenType = .whiteSpace) := by
          unfold lastNonWhitespace at hl
          have : ¬ t.tokenType = TokenType.whiteSpace := by
            rcases hty with hty | hty <;> simp [hty]
          rw [List.filter_cons, if_pos (by simpa using this)] at hl
          obtain ⟨hne', hxeq⟩ := List.mem_getLast?_eq_getLast
            (show x ∈ _ by rw [hl]; rfl)
          rw [hxeq]
          exact List.getLast_mem hne'
        rcases List.mem_cons.mp hx with rfl | hx2
        · rcases hty with hty | hty <;> simp [hty]
        · obtain ⟨hxmem, hxnw⟩ := List.mem_filter.mp hx2
          rcases hmem2 x hxmem with hws | hcm
          · exact absurd hws (by simpa using hxnw)
          · simp [hcm]

/-- C6's flag invariant: the builder's `prev_token_was_line_break` flag
is exactly "the last non-whitespace consumed token was a line break". -/
def flagOk (tokens : List Token) (s : BuilderState) : Prop :=
  ∃ pre, tokens = pre ++ s.rem ∧
    s.prevTokenWasLineBreak = prevNonWsWasLineBreak pre

theorem prevNonWs_append_ws {pre : List Token} {t : Token}
    (h : t.tokenType = .whiteSpace) :
    prevNonWsWasLineBreak (pre ++ [t]) = prevNonWsWasLineBreak pre := by
  unfold prevNonWsWasLineBreak
  rw [lastNonWhitespace_append]
  have h1 : lastNonWhitespace [t] = none := by
    unfold lastNonWhitespace; simp [h]
  rw [h1, Option.none_or]

theorem prevNonWs_append_nonWs {pre : List Token} {t : Token}
    (h : ¬ t.tokenType = .whiteSpace) :
    prevNonWsWasLineBreak (pre ++ [t]) = decide (t.tokenType = .lineBreak) := by
  unfold prevNonWsWasLineBreak
  rw [lastNonWhitespace_append]
  have h1 : lastNonWhitespace [t] = some t := by
    unfold lastNonWhitespace; simp [h]
  rw [h1, Option.or_some]

theorem flagOk_step {tokens : List Token} {s s' : BuilderState}
    (hstep : parseStepsTo s s') (hinv : flagOk tokens s) : flagOk tokens s' := by
  obtain ⟨pre, hpre, hflag⟩ := hinv
  unfold parseStepsTo parseStep at hstep
  rcases s with ⟨rem, stack, flag, pos⟩
  dsimp only at hstep hpre hflag
  cases rem with
  | nil =>
    dsimp only at hstep
    split at hstep
    · exact absurd hstep (by simp)
    · split at hstep
      · exact absurd hstep (by simp)
      · exact absurd hstep (by simp)
  | cons t rest =>
    dsimp only at hstep
    cases stack with
    | nil => exact absurd hstep (by simp)
    | cons top stackRest =>
      dsimp only at hstep
      rcases t with ⟨tt, sp, tx⟩
      dsimp only at hstep
      cases tt
      case whiteSpace =>
        obtain rfl := Sum.inl.inj (Except.ok.inj hstep)
        exact ⟨pre ++ [⟨.whiteSpace, sp, tx⟩], by simpa using hpre,
          by rw [prevNonWs_append_ws (by rfl)]; exact hflag⟩
      case lineBreak =>
        obtain rfl := Sum.inl.inj (Except.ok.inj hstep)
        exact ⟨pre ++ [⟨.lineBreak, sp, tx⟩], by simpa using hpre,
          by rw [prevNonWs_append_nonWs (by simp)]; simp⟩
      case comment =>
        obtain rfl := Sum.inl.inj (Except.ok.inj hstep)
        exact ⟨pre ++ [⟨.comment, sp, tx⟩], by simpa using hpre,
          by rw [prevNonWs_append_nonWs (by simp)]; simp⟩
      case closingCurlyBrace =>
        cases stackRest with
        | nil => exact absurd hstep (by simp)
        | cons prevNodes stackRest' =>
          dsimp only at hstep
          split at hstep
          · obtain rfl := Sum.inl.inj (Except.ok.inj hstep)
            exact ⟨pre ++ [⟨.closingCurlyBrace, sp, tx⟩], by simpa using hpre,
              by rw [prevNonWs_append_nonWs (by simp)]; simp⟩
          · exact absurd hstep (by simp)
      all_goals
        dsimp only at hstep
        split at hstep
        · exact absurd hstep (by simp)
        · rename_i stmtNode opensBlock rest2 hps
          obtain rfl := Sum.inl.inj (Except.ok.inj hstep)
          obtain ⟨spre, heq, hflagAfter⟩ := parseStatement_consumed hps
          refine ⟨pre ++ spre, ?_, ?_⟩
          · rw [hpre, heq]
            simp
          · dsimp only
            rw [hflagAfter pre]

/-- C6: during tree building, a line-break token produces an `EmptyLine`
node in the current sibling list if and only if the previous
non-whitespace token was also a line break. In every reachable state the
builder's flag equals "the last non-whitespace consumed token was a line
break", and a line-break step appends an `EmptyLine` node to the top
sibling list exactly when that condition holds (appending nothing — in
particular, for a single line break between statements — otherwise). -/
theorem c6_emptyline_iff_prev_linebreak (tokens : List Token) (s : BuilderState)
    (h : parseReaches (initState tokens) s) :
    ∃ pre, tokens = pre ++ s.rem ∧
      s.prevTokenWasLineBreak = prevNonWsWasLineBreak pre ∧
      ∀ t rest top stackRest, s.rem = t :: rest → t.tokenType = .lineBreak →
        s.stack = top :: stackRest →
        parseStep s = .ok (.inl ⟨rest,
          (if prevNonWsWasLineBreak pre then top ++ [Node.emptyLine t.text] else top)
            :: stackRest, true, t.span.1⟩) := by
  have hf : flagOk tokens s := by
    induction h with
    | refl => exact ⟨[], rfl, rfl⟩
    | tail h1 h2 ih => exact flagOk_step h2 ih
  obtain ⟨pre, hpre, hflag⟩ := hf
  refine ⟨pre, hpre, hflag, ?_⟩
  rintro ⟨tt, sp, tx⟩ rest top stackRest hrem htt hstack
  dsimp only at htt
  subst htt
  unfold parseStep
  rw [hrem, hstack]
  dsimp only
  rw [← hflag]

/-- Witness for C6: for the input `a;\n\n`, in the reachable state just
before the second line break (the first produced no node), the step on
the line-break token appends an `EmptyLine` node because the previous
non-whitespace token was a line break. -/
theorem c6_emptyline_iff_prev_linebreak_witness :
    ∃ pre,
      [(⟨.other, (0, 0), ['a']⟩ : Token), ⟨.semiColon, (1, 1), [';']⟩,
        ⟨.lineBreak, (2, 2), ['\n']⟩, ⟨.lineBreak, (3, 3), ['\n']⟩] =
          pre ++ [⟨.lineBreak, (3, 3), ['\n']⟩] ∧
      true = prevNonWsWasLineBreak pre ∧
      ∀ t rest top stackRest,
        ([(⟨.lineBreak, (3, 3), ['\n']⟩ : Token)] : List Token) = t :: rest →
        t.tokenType = .lineBreak →
        ([[Node.statement (.invalid ['a']) [] none [] none []]] : List (List Node)) =
          top :: stackRest →
        parseStep ⟨[⟨.lineBreak, (3, 3), ['\n']⟩],
            [[Node.statement (.invalid ['a']) [] none [] none []]], true, 2⟩ =
          .ok (.inl ⟨rest,
            (if prevNonWsWasLineBreak pre then top ++ [Node.emptyLine t.text] else top)
              :: stackRest, true, t.span.1⟩) :=
  c6_emptyline_iff_prev_linebreak
    [⟨.other, (0, 0), ['a']⟩, ⟨.semiColon, (1, 1), [';']⟩,
      ⟨.lineBreak, (2, 2), ['\n']⟩, ⟨.lineBreak, (3, 3), ['\n']⟩]
    ⟨[⟨.lineBreak, (3, 3), ['\n']⟩],
      [[Node.statement (.invalid ['a']) [] none [] none []]], true, 2⟩
    (Relation.ReflTransGen.tail (Relation.ReflTransGen.single (by rfl)) (by rfl))
